import Mathlib

/-!
Verification of the work-stealing thread pool in `include/Utils/include/ThreadPool.h`
and the concurrent deque wrapper in `include/Utils/include/ThreadSafeQueue.h`
(namespace `ISXThreadPool`).

The embedding is shallow:

* `ThreadSafeQueue<T>` is modelled as a `List` whose head is the front of the
  deque; `PushBack`, `PushFront`, `PopFront`, `PopBack` and
  `CopyFrontAndRotateToBack` follow the member functions of the same names.
* A submitted callable together with its bound arguments is modelled as a
  function `α → Except ε ρ`: `Except.error e` models the callable throwing
  exception `e`, `Except.ok v` models it returning `v`.  The task wrappers
  built by `ThreadPool::CreateTask` and `ThreadPool::CreateDetachedTask` are
  modelled by the outcome of executing them once (`TaskRun`): the final state
  of the shared promise, and whether an exception escaped the wrapper.
* The pool itself (`ThreadPool`) is a state `PoolState` holding the assignment
  ring `m_priority_queue`, the per-worker task queues `m_tasks[i].m_tasks`,
  the two signed atomic counters `m_unassigned_tasks` / `m_in_flight_tasks`
  (modelled as unbounded `Int`: the claims are about sign and ordering, and
  the 64-bit counters never wrap in any execution the claims quantify over)
  and the completion flag `m_threads_complete_signal`.  Pool operations are
  modelled at the granularity the spec ascribes to them: `EnqueueTask` and
  `SignalCompletion` are single atomic steps, while `ExecuteTask` is split
  into its two counter updates (`m_unassigned_tasks` is decremented when the
  task is taken off a queue, `m_in_flight_tasks` when the invocation
  finishes).  Interleavings of these steps form the transition relation
  `Step`, and `Reachable` is the set of states reachable from the freshly
  constructed pool.
-/

namespace ISXThreadPool

/-! ## ThreadSafeQueue (ThreadSafeQueue.h)

`FCDeque` is modelled as a list whose head is the deque's front and whose
last element is its back. -/

/-- `ThreadSafeQueue::PushBack`: append at the back. -/
def PushBack (q : List α) (x : α) : List α := q ++ [x]

/-- `ThreadSafeQueue::PushFront`: prepend at the front. -/
def PushFront (q : List α) (x : α) : List α := x :: q

/-- `ThreadSafeQueue::PopFront`: remove and return the front element, or
`none` on an empty deque.  Returns the popped value and the remaining deque. -/
def PopFront : List α → Option α × List α
  | [] => (none, [])
  | x :: xs => (some x, xs)

/-- `ThreadSafeQueue::PopBack`: remove and return the back element, or `none`
on an empty deque. -/
def PopBack (q : List α) : Option α × List α := (q.getLast?, q.dropLast)

/-- `ThreadSafeQueue::CopyFrontAndRotateToBack`: `PopFront`, and when a value
came out, `PushBack` the same value; the popped value is returned either way. -/
def CopyFrontAndRotateToBack (q : List α) : Option α × List α :=
  match PopFront q with
  | (none, q1) => (none, q1)
  | (some x, q1) => (some x, PushBack q1 x)

/-! ## Task wrappers (ThreadPool::CreateTask, ThreadPool::CreateDetachedTask)

A callable plus its bound arguments is a function `α → Except ε ρ`.
`TaskRun` records what one execution of the wrapping lambda does:
`promiseResult` is the final state of the shared promise (`none` when no value
or exception was stored — in particular the detached wrapper has no promise),
and `escaped` is the exception that propagated out of the wrapper itself, if
any. -/

structure TaskRun (ρ ε : Type) where
  promiseResult : Option (Except ε ρ)
  escaped : Option ε
  deriving Repr

/-- `ThreadPool::CreateTask`: the wrapper invokes `func(largs...)` inside
`try`; on normal return it stores the value into the promise (`set_value`),
and a thrown exception is caught by `catch (...)` and stored with
`set_exception`.  Either way the wrapper returns normally. -/
def CreateTask (f : α → Except ε ρ) (args : α) : TaskRun ρ ε :=
  match f args with
  | .ok v => ⟨some (.ok v), none⟩
  | .error e => ⟨some (.error e), none⟩

/-- `ThreadPool::CreateDetachedTask`: the wrapper invokes the callable inside
`try`, discards any returned value (`std::ignore`), and `catch (...) {}`
discards any exception.  There is no promise. -/
def CreateDetachedTask (f : α → Except ε ρ) (args : α) : TaskRun ρ ε :=
  match f args with
  | .ok _ => ⟨none, none⟩
  | .error _ => ⟨none, none⟩

/-- The tasks a worker actually executes when draining a list of queued task
wrappers in order (`ThreadPool::ProcessTasks` popping its own queue front to
back).  An exception escaping a wrapper would propagate out of
`std::invoke` in `ExecuteTask` and out of the worker loop, so the drain stops
at the first task whose wrapper lets an exception escape. -/
def workerServes : List (TaskRun ρ ε) → List (TaskRun ρ ε)
  | [] => []
  | t :: ts => if t.escaped.isSome then [t] else t :: workerServes ts

/-! ## Pool state (ThreadPool)

`queues` is `m_tasks` (one task queue per worker slot; the binary semaphores
only wake threads and carry no data, so they are not part of the state),
`ring` is `m_priority_queue`, `unassigned` is `m_unassigned_tasks`,
`in_flight` is `m_in_flight_tasks` and `flag` is `m_threads_complete_signal`.
`running` counts tasks that have been popped off a queue (so
`m_unassigned_tasks` was already decremented) but whose invocation has not
yet finished (so `m_in_flight_tasks` has not been decremented yet): it is the
auxiliary state that the split of `ExecuteTask` into two counter updates
introduces. -/

structure PoolState (τ : Type) where
  ring : List Nat
  queues : List (List τ)
  unassigned : Int
  in_flight : Int
  flag : Bool
  running : Nat

/-- The pool right after a construction that ended with `k` live workers:
`m_priority_queue` holds the worker indices `0..k-1`, every worker queue is
empty, both counters and the completion flag are zero-initialized. -/
def initState (τ : Type) (k : Nat) : PoolState τ :=
  ⟨List.range k, List.replicate k [], 0, 0, false, 0⟩

/-- `ThreadPool::EnqueueTask`: pop the front of the assignment ring and
rotate it to the back; when the ring is empty, return without touching
anything (the task is dropped).  Otherwise increment `m_unassigned_tasks`,
increment `m_in_flight_tasks` — storing `false` into the completion signal
when the previous in-flight count was `0` — and push the task at the back
of the chosen worker's queue. -/
def EnqueueTask (s : PoolState τ) (t : τ) : PoolState τ :=
  match CopyFrontAndRotateToBack s.ring with
  | (none, _) => s
  | (some i, ring1) =>
      { ring := ring1
        queues := s.queues.set i (PushBack (s.queues.getD i []) t)
        unassigned := s.unassigned + 1
        in_flight := s.in_flight + 1
        flag := if s.in_flight = 0 then false else s.flag
        running := s.running }

/-- `ThreadPool::SignalCompletion`: when `m_in_flight_tasks` reads `0`, store
`true` into `m_threads_complete_signal` (and notify a waiter). -/
def SignalCompletion (s : PoolState τ) : PoolState τ :=
  if s.in_flight = 0 then { s with flag := true } else s

/-- `ThreadPool::WaitForTasks` returns without blocking exactly when the
acquire load of `m_in_flight_tasks` is not `> 0`. -/
def WaitForTasksReturnsImmediately (s : PoolState τ) : Bool :=
  !(decide (0 < s.in_flight))

/-- `ThreadPool::ExecuteTask` after the task has been popped:
`m_unassigned_tasks.fetch_sub(1)`, then `std::invoke` on the wrapper, then
`m_in_flight_tasks.fetch_sub(1)`.  When the invocation lets an exception
escape (`escapes = true`), control leaves `ExecuteTask` before the in-flight
decrement. -/
def ExecuteTaskCounters (s : PoolState τ) (escapes : Bool) : PoolState τ :=
  let s1 := { s with unassigned := s.unassigned - 1 }
  if escapes then s1 else { s1 with in_flight := s1.in_flight - 1 }

/-- Guard of the `do … while` loop in `ThreadPool::ProcessTasks`: repeat
while `m_unassigned_tasks` reads `> 0`. -/
def ProcessTasksGuard (s : PoolState τ) : Bool := decide (0 < s.unassigned)

/-! ### Interleaved steps

One step is one of the atomic state changes of the pool, performed by any
thread: a producer running `EnqueueTask`; a worker taking a task off the
front of its own queue (`ProcessTasks` / `PopFront`) or off the back of a
peer queue (`StealTask` / `PopBack`), which carries the
`m_unassigned_tasks.fetch_sub(1)` of `ExecuteTask`; a worker finishing an
invocation (`m_in_flight_tasks.fetch_sub(1)`); and a worker running
`SignalCompletion`.  Task wrappers never let an exception escape
(`CreateTask_ok` / `CreateTask_throws` / `CreateDetachedTask_run` below), so
the finish step always follows a start step. -/

inductive Step (τ : Type) : PoolState τ → PoolState τ → Prop where
  | enqueue (s : PoolState τ) (t : τ) : Step τ s (EnqueueTask s t)
  | start_own (s : PoolState τ) (i : Nat) (t : τ) (rest : List τ)
      (hi : i < s.queues.length) (hq : s.queues.getD i [] = t :: rest) :
      Step τ s { s with queues := s.queues.set i rest,
                        unassigned := s.unassigned - 1,
                        running := s.running + 1 }
  | start_steal (s : PoolState τ) (i : Nat) (t : τ) (rest : List τ)
      (hi : i < s.queues.length) (hq : s.queues.getD i [] = rest ++ [t]) :
      Step τ s { s with queues := s.queues.set i rest,
                        unassigned := s.unassigned - 1,
                        running := s.running + 1 }
  | finish (s : PoolState τ) (h : 0 < s.running) :
      Step τ s { s with running := s.running - 1,
                        in_flight := s.in_flight - 1 }
  | signal (s : PoolState τ) : Step τ s (SignalCompletion s)

/-- States reachable from a freshly constructed pool with `k` live workers. -/
inductive Reachable (τ : Type) (k : Nat) : PoolState τ → Prop where
  | init : Reachable τ k (initState τ k)
  | step {s s1 : PoolState τ} : Reachable τ k s → Step τ s s1 → Reachable τ k s1

/-- Total number of tasks sitting in worker queues. -/
def sumQueues (s : PoolState τ) : Nat := (s.queues.map List.length).sum

/-- Inductive invariant of the pool: `m_unassigned_tasks` counts exactly the
queued tasks, `m_in_flight_tasks` counts queued plus currently running
tasks, the completion signal is only ever `true` when nothing is in flight,
and the assignment ring only holds indices of existing worker slots. -/
def PoolInv (s : PoolState τ) : Prop :=
  s.unassigned = (sumQueues s : Int) ∧
  s.in_flight = (sumQueues s : Int) + s.running ∧
  (s.flag = true → s.in_flight = 0) ∧
  ∀ i ∈ s.ring, i < s.queues.length

/-! ## Work stealing (ThreadPool::StealTask)

The source iterates `j = 1 … m_tasks.size() - 1`, probes slot
`(id + j) % m_tasks.size()` with `PopBack`, and on the first probe that
yields a task executes it and breaks out of the loop.  `stealGo` runs the
loop body over an explicit list of offsets `j`; `StealTask` supplies the
offsets `1 … size - 1` in loop order.  The result is the stolen slot index
and task (or `none`) together with the queues after the steal. -/

def stealGo (queues : List (List τ)) (id : Nat) :
    List Nat → Option (Nat × τ) × List (List τ)
  | [] => (none, queues)
  | j :: js =>
      let index := (id + j) % queues.length
      match PopBack (queues.getD index []) with
      | (some t, q1) => (some (index, t), queues.set index q1)
      | (none, _) => stealGo queues id js

def StealTask (queues : List (List τ)) (id : Nat) :
    Option (Nat × τ) × List (List τ) :=
  stealGo queues id (List.range' 1 (queues.length - 1))

/-! ## Assignment trace

The sequence of worker indices that `EnqueueTask` picks for a sequence of
submissions (each `Enqueue` / `EnqueueDetach` funnels into one `EnqueueTask`
call).  A submission hitting an empty ring assigns nothing. -/

def assignTrace : PoolState τ → List τ → List Nat
  | _, [] => []
  | s, t :: ts =>
      match (CopyFrontAndRotateToBack s.ring).1 with
      | none => assignTrace (EnqueueTask s t) ts
      | some i => i :: assignTrace (EnqueueTask s t) ts

/-! ## Construction (ThreadPool::InitializeThreads)

The constructor first builds `m_tasks` with `number_of_threads` slots, then
runs `InitializeThreads`: for each of the `number_of_threads` iterations it
pushes `current_id` at the back of the ring and tries to spawn the worker
thread; on success `current_id` is incremented, on a throw the `catch`
handler pops the back slot of `m_tasks` and pops the back of the ring.
`outcomes` lists, per iteration, whether `emplace_back` threw
(`true` = spawn failed). -/

structure InitState where
  threads : Nat
  slots : Nat
  ring : List Nat
  current_id : Nat
  deriving Repr, DecidableEq

def InitStep (st : InitState) (fails : Bool) : InitState :=
  let ring1 := PushBack st.ring st.current_id
  if fails then
    { st with slots := st.slots - 1, ring := (PopBack ring1).2 }
  else
    { threads := st.threads + 1, slots := st.slots, ring := ring1,
      current_id := st.current_id + 1 }

def InitializeThreads (n : Nat) (outcomes : List Bool) : InitState :=
  outcomes.foldl InitStep ⟨0, n, [], 0⟩

/-! ## Future lifecycle (ThreadPool::Enqueue)

`Enqueue` creates `shared_promise`, wraps it into the task via `CreateTask`,
takes the future from the promise, and hands the task to `EnqueueTask`.
`FutureState` is the state of that returned future once the task's fate is
decided.  When `EnqueueTask` kept the task, the future reflects what the
wrapper stored into the promise when it ran.  When `EnqueueTask` dropped the
task (empty ring), both `shared_ptr` copies of the promise — the one inside
the discarded task and the local `shared_promise` — are destroyed when
`Enqueue` returns, and destroying an unfulfilled `std::promise` abandons the
shared state with a stored `std::future_error(broken_promise)`, which makes
the future ready with that exception. -/

inductive FutureState (ρ ε : Type) where
  | pending
  | value (v : ρ)
  | exception (e : ε)
  | brokenPromise
  deriving Repr

/-- The future is ready: `wait()` would return at once and `get()` would
yield a value or throw rather than block. -/
def FutureState.isReady : FutureState ρ ε → Bool
  | .pending => false
  | _ => true

/-- Final state of the future returned by `Enqueue f args`, as a function of
whether the assignment ring was empty when `EnqueueTask` ran: a dropped
task's promise is destroyed unfulfilled (broken promise), a kept task's
promise ends up holding whatever the `CreateTask` wrapper stored when the
task executed. -/
def enqueueFutureFinal (ringEmpty : Bool) (f : α → Except ε ρ) (args : α) :
    FutureState ρ ε :=
  if ringEmpty then .brokenPromise
  else
    match (CreateTask f args).promiseResult with
    | some (.ok v) => .value v
    | some (.error e) => .exception e
    | none => .pending

/-! # Theorems -/

/-! ## Queue lemmas -/

theorem PopFront_eq (q : List α) : PopFront q = (q.head?, q.tail) := by
  cases q <;> rfl

theorem CopyFrontAndRotateToBack_cons (x : α) (xs : List α) :
    CopyFrontAndRotateToBack (x :: xs) = (some x, xs ++ [x]) := rfl

theorem CopyFrontAndRotateToBack_rotate (q : List α) (h : q ≠ []) :
    CopyFrontAndRotateToBack q = (q.head?, q.rotate 1) := by
  cases q with
  | nil => exact absurd rfl h
  | cons x xs => simp [CopyFrontAndRotateToBack_cons, List.rotate_cons_succ]

theorem sumLen_set (l : List (List τ)) (i : Nat) (q : List τ) (hi : i < l.length) :
    ((l.set i q).map List.length).sum + (l.getD i []).length
      = (l.map List.length).sum + q.length := by
  induction l generalizing i with
  | nil => simp at hi
  | cons a m ih =>
    cases i with
    | zero => simp [List.getD] ; omega
    | succ n =>
      have hn : n < m.length := by simpa using hi
      have := ih n hn
      simp only [List.set, List.map, List.sum_cons, List.getD_cons_succ]
      omega

/-! ## EnqueueTask lemmas -/

theorem EnqueueTask_nil (s : PoolState τ) (t : τ) (hr : s.ring = []) :
    EnqueueTask s t = s := by
  simp [EnqueueTask, hr, CopyFrontAndRotateToBack, PopFront]

theorem EnqueueTask_cons (s : PoolState τ) (t : τ) (i : Nat) (rs : List Nat)
    (hr : s.ring = i :: rs) :
    EnqueueTask s t =
      { ring := rs ++ [i]
        queues := s.queues.set i (PushBack (s.queues.getD i []) t)
        unassigned := s.unassigned + 1
        in_flight := s.in_flight + 1
        flag := if s.in_flight = 0 then false else s.flag
        running := s.running } := by
  simp [EnqueueTask, hr, CopyFrontAndRotateToBack, PopFront, PushBack]

/-! ## The pool invariant -/

theorem poolInv_init (τ : Type) (k : Nat) : PoolInv (initState τ k) := by
  refine ⟨?_, ?_, ?_, ?_⟩ <;>
    simp [PoolInv, initState, sumQueues, List.mem_range]

theorem poolInv_step {s s1 : PoolState τ} (hstep : Step τ s s1)
    (h : PoolInv s) : PoolInv s1 := by
  obtain ⟨h1, h2, h3, h4⟩ := h
  cases hstep with
  | enqueue t =>
    cases hr : s.ring with
    | nil => rw [EnqueueTask_nil s t hr]; exact ⟨h1, h2, h3, h4⟩
    | cons i rs =>
      have hi : i < s.queues.length := h4 i (hr ▸ List.mem_cons_self i rs)
      rw [EnqueueTask_cons s t i rs hr]
      have hsum := sumLen_set s.queues i (PushBack (s.queues.getD i []) t) hi
      simp only [PushBack, List.length_append, List.length_cons,
        List.length_nil] at hsum
      refine ⟨?_, ?_, ?_, ?_⟩
      · simp only [sumQueues, PushBack] at h1 ⊢; omega
      · simp only [sumQueues, PushBack] at h2 ⊢; omega
      · intro hf
        by_cases h0 : s.in_flight = 0
        · simp [h0] at hf
        · simp only [if_neg h0] at hf
          exact (h0 (h3 hf)).elim
      · intro j hj
        simp only [List.length_set]
        refine h4 j ?_
        rw [hr]
        rcases List.mem_append.1 hj with hj1 | hj2
        · exact List.mem_cons_of_mem i hj1
        · simp only [List.mem_singleton] at hj2
          simp [hj2]
  | start_own i t rest hi hq =>
    have hsum := sumLen_set s.queues i rest hi
    rw [hq] at hsum
    simp only [List.length_cons] at hsum
    refine ⟨?_, ?_, h3, ?_⟩
    · simp only [sumQueues] at h1 ⊢; omega
    · simp only [sumQueues] at h2 ⊢; omega
    · intro j hj
      simp only [List.length_set]
      exact h4 j hj
  | start_steal i t rest hi hq =>
    have hsum := sumLen_set s.queues i rest hi
    rw [hq] at hsum
    simp only [List.length_append, List.length_cons, List.length_nil] at hsum
    refine ⟨?_, ?_, h3, ?_⟩
    · simp only [sumQueues] at h1 ⊢; omega
    · simp only [sumQueues] at h2 ⊢; omega
    · intro j hj
      simp only [List.length_set]
      exact h4 j hj
  | finish h =>
    refine ⟨h1, ?_, ?_, h4⟩
    · simp only [sumQueues] at h2 ⊢; omega
    · intro hf
      have h0 := h3 hf
      simp only [sumQueues] at h2
      omega
  | signal =>
    unfold SignalCompletion
    by_cases h0 : s.in_flight = 0
    · simp only [if_pos h0]
      exact ⟨h1, h2, fun _ => h0, h4⟩
    · simp only [if_neg h0]
      exact ⟨h1, h2, h3, h4⟩

theorem poolInv_reachable {τ : Type} {k : Nat} {s : PoolState τ}
    (h : Reachable τ k s) : PoolInv s := by
  induction h with
  | init => exact poolInv_init τ k
  | step _ hstep ih => exact poolInv_step hstep ih

/-! ## Claim theorems -/

/-- C1: a callable that returns `v` without throwing is wrapped by
`ThreadPool::CreateTask` into a task that stores `v` into the shared promise
(`set_value`), so the future `Enqueue` obtained from that promise resolves to
exactly `v`; nothing escapes the wrapper.  The void case is the instance
`ρ := Unit`, where the stored ready value is `Except.ok ()`. -/
theorem claim_enqueue_resolves_value (f : α → Except ε ρ) (args : α) (v : ρ)
    (h : f args = .ok v) :
    (CreateTask f args).promiseResult = some (.ok v) ∧
    (CreateTask f args).escaped = none := by
  simp [CreateTask, h]

theorem claim_enqueue_resolves_value_witness :
    ((fun n : Nat => (Except.ok (n + 1) : Except String Nat)) 2 = .ok 3) ∧
    ((CreateTask (fun n : Nat => (Except.ok (n + 1) : Except String Nat))
        2).promiseResult = some (.ok 3) ∧
      (CreateTask (fun n : Nat => (Except.ok (n + 1) : Except String Nat))
        2).escaped = none) :=
  ⟨rfl, claim_enqueue_resolves_value _ 2 3 rfl⟩

/-- C2: a callable that throws `e` is wrapped by `ThreadPool::CreateTask`
into a task that catches `e` and stores it into the promise
(`set_exception`), so the future reports `e` on access; the wrapper returns
normally (`escaped = none`), so the worker drain that executes it goes on to
serve every subsequent task. -/
theorem claim_enqueue_captures_exception (f : α → Except ε ρ) (args : α)
    (e : ε) (h : f args = .error e) :
    (CreateTask f args).promiseResult = some (.error e) ∧
    (CreateTask f args).escaped = none ∧
    ∀ ts : List (TaskRun ρ ε),
      workerServes (CreateTask f args :: ts)
        = CreateTask f args :: workerServes ts := by
  refine ⟨by simp [CreateTask, h], by simp [CreateTask, h], fun ts => ?_⟩
  simp [workerServes, CreateTask, h]

theorem claim_enqueue_captures_exception_witness :
    ((fun _ : Nat => (Except.error "boom" : Except String Nat)) 0
        = .error "boom") ∧
    ((CreateTask (fun _ : Nat => (Except.error "boom" : Except String Nat))
        0).promiseResult = some (.error "boom") ∧
      (CreateTask (fun _ : Nat => (Except.error "boom" : Except String Nat))
        0).escaped = none ∧
      ∀ ts, workerServes
          (CreateTask (fun _ : Nat =>
            (Except.error "boom" : Except String Nat)) 0 :: ts)
        = CreateTask (fun _ : Nat =>
            (Except.error "boom" : Except String Nat)) 0 :: workerServes ts) :=
  ⟨rfl, claim_enqueue_captures_exception _ 0 "boom" rfl⟩

/-- C3: in every state reachable by interleaved pool steps, the completion
signal being `true` implies `m_in_flight_tasks = 0`, and whenever
`m_in_flight_tasks` is `0`, running `SignalCompletion` — which every worker
does after each wake — stores `true` into the signal, so a blocked
`WaitForTasks` caller (waiting for the signal to leave `false`) is released:
no missed wakeup. -/
theorem claim_completion_flag {τ : Type} {k : Nat} {s : PoolState τ}
    (h : Reachable τ k s) :
    (s.flag = true → s.in_flight = 0) ∧
    (s.in_flight = 0 → (SignalCompletion s).flag = true) := by
  obtain ⟨-, -, h3, -⟩ := poolInv_reachable h
  refine ⟨h3, fun h0 => ?_⟩
  simp [SignalCompletion, h0]

theorem claim_completion_flag_witness :
    ((SignalCompletion (initState Unit 1)).flag = true →
        (SignalCompletion (initState Unit 1)).in_flight = 0) ∧
    ((SignalCompletion (initState Unit 1)).in_flight = 0 →
        (SignalCompletion (SignalCompletion (initState Unit 1))).flag = true) :=
  claim_completion_flag
    (Reachable.step Reachable.init (Step.signal (initState Unit 1)))

/-- C4: in every state reachable from the freshly constructed pool (both
counters zero) under any interleaving of pool steps, both counters are
non-negative and `m_in_flight_tasks ≥ m_unassigned_tasks`. -/
theorem claim_counter_ordering {τ : Type} {k : Nat} {s : PoolState τ}
    (h : Reachable τ k s) :
    0 ≤ s.unassigned ∧ 0 ≤ s.in_flight ∧ s.unassigned ≤ s.in_flight := by
  obtain ⟨h1, h2, -, -⟩ := poolInv_reachable h
  omega

theorem claim_counter_ordering_witness :
    0 ≤ (EnqueueTask (initState Unit 2) ()).unassigned ∧
    0 ≤ (EnqueueTask (initState Unit 2) ()).in_flight ∧
    (EnqueueTask (initState Unit 2) ()).unassigned
      ≤ (EnqueueTask (initState Unit 2) ()).in_flight :=
  claim_counter_ordering
    (Reachable.step Reachable.init (Step.enqueue (initState Unit 2) ()))

/-- C6: pushing `x` at the back of a deque and then calling
`CopyFrontAndRotateToBack` returns the element at the front (`x` itself when
the deque was empty), keeps the size and the multiset of elements unchanged,
and leaves the former front element at the tail. -/
theorem claim_push_then_rotate (q : List α) (x : α) :
    (CopyFrontAndRotateToBack (PushBack q x)).1 = some (q.headD x) ∧
    (CopyFrontAndRotateToBack (PushBack q x)).2
      = (PushBack q x).tail ++ [q.headD x] ∧
    (CopyFrontAndRotateToBack (PushBack q x)).2.length = (PushBack q x).length ∧
    (CopyFrontAndRotateToBack (PushBack q x)).2.Perm (PushBack q x) ∧
    (CopyFrontAndRotateToBack (PushBack q x)).2.getLast? = some (q.headD x) := by
  cases q with
  | nil =>
    refine ⟨rfl, rfl, rfl, ?_, rfl⟩
    exact List.Perm.refl _
  | cons a as =>
    have hpush : PushBack (a :: as) x = a :: (as ++ [x]) := by
      simp [PushBack]
    rw [hpush]
    rw [CopyFrontAndRotateToBack_cons]
    refine ⟨rfl, by simp [PushBack], by simp, ?_, by simp⟩
    exact List.perm_append_singleton a (as ++ [x])

/-- C8: `ThreadPool::CreateDetachedTask` wraps any callable into a task with
no promise (the return value is discarded) whose `catch (...) {}` swallows
any exception, so the wrapper returns normally in every case; consequently
`ExecuteTask` reaches both counter decrements even for a throwing detached
task, and when that task was the last one in flight, `SignalCompletion`
raises the completion signal and a subsequent `WaitForTasks` returns
immediately. -/
theorem claim_detached_silent (f : α → Except ε ρ) (args : α)
    (s : PoolState τ) :
    (CreateDetachedTask f args).escaped = none ∧
    (CreateDetachedTask f args).promiseResult = none ∧
    (ExecuteTaskCounters s (CreateDetachedTask f args).escaped.isSome).unassigned
      = s.unassigned - 1 ∧
    (ExecuteTaskCounters s (CreateDetachedTask f args).escaped.isSome).in_flight
      = s.in_flight - 1 ∧
    (s.in_flight = 1 →
      WaitForTasksReturnsImmediately
        (SignalCompletion
          (ExecuteTaskCounters s
            (CreateDetachedTask f args).escaped.isSome)) = true) := by
  have hrun : CreateDetachedTask f args = ⟨none, none⟩ := by
    cases hf : f args <;> simp [CreateDetachedTask, hf]
  rw [hrun]
  refine ⟨rfl, rfl, rfl, rfl, fun h1 => ?_⟩
  simp [ExecuteTaskCounters, SignalCompletion, WaitForTasksReturnsImmediately, h1]

theorem claim_detached_silent_witness :
    (CreateDetachedTask (fun _ : Nat =>
        (Except.error "boom" : Except String Nat)) 0).escaped = none ∧
    (CreateDetachedTask (fun _ : Nat =>
        (Except.error "boom" : Except String Nat)) 0).promiseResult = none ∧
    (ExecuteTaskCounters (EnqueueTask (initState Unit 1) ())
        (CreateDetachedTask (fun _ : Nat =>
          (Except.error "boom" : Except String Nat)) 0).escaped.isSome).unassigned
      = (EnqueueTask (initState Unit 1) ()).unassigned - 1 ∧
    (ExecuteTaskCounters (EnqueueTask (initState Unit 1) ())
        (CreateDetachedTask (fun _ : Nat =>
          (Except.error "boom" : Except String Nat)) 0).escaped.isSome).in_flight
      = (EnqueueTask (initState Unit 1) ()).in_flight - 1 ∧
    ((EnqueueTask (initState Unit 1) ()).in_flight = 1 →
      WaitForTasksReturnsImmediately
        (SignalCompletion
          (ExecuteTaskCounters (EnqueueTask (initState Unit 1) ())
            (CreateDetachedTask (fun _ : Nat =>
              (Except.error "boom" : Except String Nat)) 0).escaped.isSome)) = true) :=
  claim_detached_silent _ 0 (EnqueueTask (initState Unit 1) ())

/-- C10 counterexample: the conjunct "a future obtained from `Enqueue` on
such a pool never becomes ready" is false of the code.  On the zero-worker
pool (`initState τ 0`, whose ring `List.range 0` is empty) the future from
`Enqueue` of any callable becomes ready as soon as `Enqueue` returns: the
dropped task's shared promise is destroyed unfulfilled, which stores
`std::future_error(broken_promise)` into the shared state. -/
theorem claim_empty_ring_never_ready_counterexample :
    (enqueueFutureFinal (initState Unit 0).ring.isEmpty
        (fun n : Nat => (Except.ok n : Except String Nat)) 0).isReady = true
      ∧ enqueueFutureFinal (initState Unit 0).ring.isEmpty
          (fun n : Nat => (Except.ok n : Except String Nat)) 0
        = FutureState.brokenPromise :=
  ⟨rfl, rfl⟩

/-- C10 (amended): when the assignment ring is empty (zero live workers),
`ThreadPool::EnqueueTask` returns before touching any state: counters,
completion signal and every worker queue are unchanged and the task is
silently dropped.  The future from `Enqueue` on such a pool therefore never
resolves to a value of the callable (nor to an exception the callable
threw): the discarded task's promise is destroyed unfulfilled when
`Enqueue` returns, so the future becomes ready with a `broken_promise`
error instead.  `WaitForTasks` — seeing `m_in_flight_tasks = 0` — still
returns immediately. -/
theorem claim_empty_ring_drops (s : PoolState τ) (t : τ)
    (f : α → Except ε ρ) (args : α) (h : s.ring = []) :
    EnqueueTask s t = s ∧
    (s.in_flight = 0 → WaitForTasksReturnsImmediately s = true) ∧
    enqueueFutureFinal s.ring.isEmpty f args = FutureState.brokenPromise ∧
    (∀ v : ρ, enqueueFutureFinal s.ring.isEmpty f args ≠ FutureState.value v) ∧
    (∀ e : ε, enqueueFutureFinal s.ring.isEmpty f args
        ≠ FutureState.exception e) := by
  have hempty : s.ring.isEmpty = true := by simp [h]
  refine ⟨EnqueueTask_nil s t h, fun h0 => ?_, ?_, ?_, ?_⟩
  · simp [WaitForTasksReturnsImmediately, h0]
  · simp [enqueueFutureFinal, hempty]
  · intro v
    simp [enqueueFutureFinal, hempty]
  · intro e
    simp [enqueueFutureFinal, hempty]

theorem claim_empty_ring_drops_witness :
    (initState Unit 0).ring = [] ∧
    (EnqueueTask (initState Unit 0) () = initState Unit 0 ∧
      ((initState Unit 0).in_flight = 0 →
        WaitForTasksReturnsImmediately (initState Unit 0) = true) ∧
      enqueueFutureFinal (initState Unit 0).ring.isEmpty
          (fun b : Bool => (Except.ok b : Except String Bool)) true
        = FutureState.brokenPromise ∧
      (∀ v : Bool, enqueueFutureFinal (initState Unit 0).ring.isEmpty
          (fun b : Bool => (Except.ok b : Except String Bool)) true
        ≠ FutureState.value v) ∧
      (∀ e : String, enqueueFutureFinal (initState Unit 0).ring.isEmpty
          (fun b : Bool => (Except.ok b : Except String Bool)) true
        ≠ FutureState.exception e)) :=
  ⟨rfl, claim_empty_ring_drops (initState Unit 0) ()
    (fun b : Bool => (Except.ok b : Except String Bool)) true rfl⟩

/-! ## Round-robin assignment -/

theorem EnqueueTask_ring (s : PoolState τ) (t : τ) (h : s.ring ≠ []) :
    (EnqueueTask s t).ring = s.ring.rotate 1 := by
  cases hr : s.ring with
  | nil => exact absurd hr h
  | cons i rs =>
    rw [EnqueueTask_cons s t i rs hr]
    simp [List.rotate_cons_succ]

theorem head?_range_rotate (k j : Nat) (hk : 0 < k) :
    ((List.range k).rotate j).head? = some (j % k) := by
  have hmod : j % k < k := Nat.mod_lt j hk
  have h1 : (List.range k).rotate j = (List.range k).rotate (j % k) := by
    conv_lhs => rw [← List.rotate_mod]
    rw [List.length_range]
  rw [h1, List.head?_rotate (by simpa using hmod)]
  simp [hmod]

theorem assignTrace_rotate (k : Nat) (hk : 0 < k) (ts : List τ) :
    ∀ (j : Nat) (s : PoolState τ), s.ring = (List.range k).rotate j →
      assignTrace s ts = (List.range ts.length).map (fun n => (j + n) % k) := by
  induction ts with
  | nil => intro j s _; simp [assignTrace]
  | cons t ts ih =>
    intro j s hr
    have hne : s.ring ≠ [] := by
      rw [hr]
      intro hcon
      have hlen := congrArg List.length hcon
      simp [List.length_rotate] at hlen
      omega
    have hfst : (CopyFrontAndRotateToBack s.ring).1 = some (j % k) := by
      rw [CopyFrontAndRotateToBack_rotate s.ring hne, hr]
      exact head?_range_rotate k j hk
    have hring1 : (EnqueueTask s t).ring = (List.range k).rotate (j + 1) := by
      rw [EnqueueTask_ring s t hne, hr, List.rotate_rotate]
    have hrec := ih (j + 1) (EnqueueTask s t) hring1
    simp only [assignTrace, hfst, hrec, List.length_cons,
      List.range_succ_eq_map, List.map_cons, List.map_map]
    have hfun : (fun n => (j + 1 + n) % k) = fun n : Nat => (j + (n + 1)) % k := by
      funext n
      congr 1
      omega
    rw [hfun]
    simp [Function.comp]

/-- C5: with `k` live workers and no concurrent activity, a sequence of
submissions (each `Enqueue` / `EnqueueDetach` call runs `EnqueueTask`, which
takes the index at the front of `m_priority_queue` and rotates it to the
back) assigns tasks to worker queues in pure cyclic round-robin order
`0, 1, …, k-1, 0, …` — no priority ordering. -/
theorem claim_round_robin (k : Nat) (hk : 0 < k) (ts : List τ) :
    assignTrace (initState τ k) ts = (List.range ts.length).map (· % k) := by
  have h := assignTrace_rotate k hk ts 0 (initState τ k)
    (by simp [initState])
  simpa using h

theorem claim_round_robin_witness :
    0 < 2 ∧ assignTrace (initState Unit 2) [(), (), ()]
        = (List.range 3).map (· % 2) :=
  ⟨by decide, claim_round_robin 2 (by decide) [(), (), ()]⟩

/-! ## Work stealing -/

theorem stealGo_empty_all (queues : List (List τ)) (id : Nat) (js : List Nat)
    (h : ∀ j ∈ js, queues.getD ((id + j) % queues.length) [] = []) :
    stealGo queues id js = (none, queues) := by
  induction js with
  | nil => rfl
  | cons j js ih =>
    have hj := h j (List.mem_cons_self j js)
    simp only [stealGo, hj, PopBack, List.getLast?_nil, List.dropLast_nil]
    exact ih fun j2 hj2 => h j2 (List.mem_cons_of_mem j hj2)

theorem stealGo_first (queues : List (List τ)) (id : Nat) (js1 : List Nat)
    (j0 : Nat) (js2 : List Nat)
    (h1 : ∀ j ∈ js1, queues.getD ((id + j) % queues.length) [] = [])
    (h2 : queues.getD ((id + j0) % queues.length) [] ≠ []) :
    stealGo queues id (js1 ++ j0 :: js2)
      = ((queues.getD ((id + j0) % queues.length) []).getLast?.map
            (fun x => ((id + j0) % queues.length, x)),
         queues.set ((id + j0) % queues.length)
           (queues.getD ((id + j0) % queues.length) []).dropLast) := by
  induction js1 with
  | nil =>
    have hlast := List.getLast?_eq_getLast_of_ne_nil h2
    simp only [List.nil_append, stealGo, PopBack, hlast]
    rfl
  | cons j js ih =>
    have hj := h1 j (List.mem_cons_self j js)
    simp only [List.cons_append, stealGo, hj, PopBack, List.getLast?_nil,
      List.dropLast_nil]
    exact ih fun j2 hj2 => h1 j2 (List.mem_cons_of_mem j hj2)

/-- C9: a stealing worker with id `own_id` probes the other slots in ring
order `own_id + 1, own_id + 2, …` (mod `k`); the first peer whose `PopBack`
yields a task loses its tail element, which is the one task executed, and
the scan stops there; if no peer yields a task, nothing changes.  The
surrounding `do … while` in `ProcessTasks` repeats exactly while
`m_unassigned_tasks > 0`. -/
theorem claim_steal_scan (queues : List (List τ)) (id : Nat) :
    ((∀ j ∈ List.range' 1 (queues.length - 1),
        queues.getD ((id + j) % queues.length) [] = []) →
      StealTask queues id = (none, queues)) ∧
    (∀ js1 j0 js2, List.range' 1 (queues.length - 1) = js1 ++ j0 :: js2 →
      (∀ j ∈ js1, queues.getD ((id + j) % queues.length) [] = []) →
      queues.getD ((id + j0) % queues.length) [] ≠ [] →
      StealTask queues id
        = ((queues.getD ((id + j0) % queues.length) []).getLast?.map
              (fun x => ((id + j0) % queues.length, x)),
           queues.set ((id + j0) % queues.length)
             (queues.getD ((id + j0) % queues.length) []).dropLast)) ∧
    (∀ s : PoolState τ, ProcessTasksGuard s = true ↔ 0 < s.unassigned) := by
  refine ⟨fun h => ?_, fun js1 j0 js2 hsplit h1 h2 => ?_, fun s => ?_⟩
  · exact stealGo_empty_all queues id _ h
  · unfold StealTask
    rw [hsplit]
    exact stealGo_first queues id js1 j0 js2 h1 h2
  · simp [ProcessTasksGuard]

theorem claim_steal_scan_witness :
    StealTask [([] : List Nat), [], [5]] 0 = (some (2, 5), [[], [], []]) := by
  have h := (claim_steal_scan [([] : List Nat), [], [5]] 0).2.1 [1] 2 []
    (by decide) (by decide) (by decide)
  simpa using h

/-! ## Construction -/

theorem count_false_add_count_true (l : List Bool) :
    l.count false + l.count true = l.length := by
  induction l with
  | nil => rfl
  | cons b bs ih =>
    cases b <;> simp [List.count_cons] <;> omega

theorem initFold_spec (outcomes : List Bool) :
    ∀ st : InitState, st.ring = List.range st.current_id →
      st.threads = st.current_id →
      ((outcomes.foldl InitStep st).threads
          = st.threads + outcomes.count false ∧
        (outcomes.foldl InitStep st).current_id
          = st.current_id + outcomes.count false ∧
        (outcomes.foldl InitStep st).ring
          = List.range (st.current_id + outcomes.count false) ∧
        (outcomes.foldl InitStep st).slots
          = st.slots - outcomes.count true) := by
  induction outcomes with
  | nil =>
    intro st h1 h2
    simp [h1]
  | cons b bs ih =>
    intro st h1 h2
    simp only [List.foldl_cons]
    cases b with
    | false =>
      have hstep : InitStep st false
          = ⟨st.threads + 1, st.slots, PushBack st.ring st.current_id,
             st.current_id + 1⟩ := rfl
      have hpre1 : (InitStep st false).ring
          = List.range (InitStep st false).current_id := by
        rw [hstep]
        simp [PushBack, h1, List.range_succ]
      have hpre2 : (InitStep st false).threads
          = (InitStep st false).current_id := by
        rw [hstep]
        simp [h2]
      obtain ⟨ha, hb, hc, hd⟩ := ih (InitStep st false) hpre1 hpre2
      rw [hstep] at ha hb hc hd
      rw [hstep]
      refine ⟨?_, ?_, ?_, ?_⟩
      · rw [ha]
        simp [List.count_cons]
        omega
      · rw [hb]
        simp [List.count_cons]
        omega
      · rw [hc]
        congr 1
        simp [List.count_cons]
        omega
      · rw [hd]
        simp [List.count_cons]
    | true =>
      have hstep : InitStep st true
          = ⟨st.threads, st.slots - 1,
             (PopBack (PushBack st.ring st.current_id)).2, st.current_id⟩ := rfl
      have hpre1 : (InitStep st true).ring
          = List.range (InitStep st true).current_id := by
        rw [hstep]
        simp [PopBack, PushBack, h1, List.dropLast_concat]
      have hpre2 : (InitStep st true).threads
          = (InitStep st true).current_id := by
        rw [hstep]
        simp [h2]
      obtain ⟨ha, hb, hc, hd⟩ := ih (InitStep st true) hpre1 hpre2
      rw [hstep] at ha hb hc hd
      rw [hstep]
      refine ⟨?_, ?_, ?_, ?_⟩
      · rw [ha]
        simp [List.count_cons]
      · rw [hb]
        simp [List.count_cons]
      · rw [hc]
        simp [List.count_cons]
      · rw [hd]
        simp [List.count_cons]
        omega

/-- C7: running the construction loop with `outcomes` listing which of the
`N = outcomes.length` spawn attempts threw (`true` = the thread constructor
threw and the `catch` handler popped the just-pushed ring entry and the back
slot of `m_tasks`): with `k` failures the pool ends with
`Size() = m_threads.size() = N - k` live workers, `N - k` slots, and the
ring holds exactly the live indices `0 … N-k-1`, so no assignment ever goes
to a dead worker; with no failures `Size() = N`. -/
theorem claim_spawn_failure (outcomes : List Bool) :
    (InitializeThreads outcomes.length outcomes).threads
        = outcomes.length - outcomes.count true ∧
    (InitializeThreads outcomes.length outcomes).slots
        = outcomes.length - outcomes.count true ∧
    (InitializeThreads outcomes.length outcomes).ring
        = List.range ((InitializeThreads outcomes.length outcomes).threads) ∧
    (∀ i ∈ (InitializeThreads outcomes.length outcomes).ring,
        i < (InitializeThreads outcomes.length outcomes).threads) ∧
    (outcomes.count true = 0 →
      (InitializeThreads outcomes.length outcomes).threads
        = outcomes.length) := by
  obtain ⟨ha, hb, hc, hd⟩ := initFold_spec outcomes
    ⟨0, outcomes.length, [], 0⟩ (by simp) rfl
  have hcnt := count_false_add_count_true outcomes
  dsimp only at ha hb hc hd
  unfold InitializeThreads
  refine ⟨by omega, by simpa using hd, ?_, ?_, by omega⟩
  · rw [hc, ha]
  · intro i hi
    rw [hc] at hi
    rw [ha]
    exact List.mem_range.1 hi

theorem claim_spawn_failure_witness :
    (InitializeThreads [false, true, false].length
        [false, true, false]).threads
      = [false, true, false].length - [false, true, false].count true ∧
    (InitializeThreads [false, true, false].length
        [false, true, false]).slots
      = [false, true, false].length - [false, true, false].count true ∧
    (InitializeThreads [false, true, false].length
        [false, true, false]).ring
      = List.range ((InitializeThreads [false, true, false].length
          [false, true, false]).threads) ∧
    (∀ i ∈ (InitializeThreads [false, true, false].length
        [false, true, false]).ring,
      i < (InitializeThreads [false, true, false].length
          [false, true, false]).threads) ∧
    ([false, true, false].count true = 0 →
      (InitializeThreads [false, true, false].length
          [false, true, false]).threads = [false, true, false].length) :=
  claim_spawn_failure [false, true, false]

end ISXThreadPool
